import Mathlib

/-!
Shallow embedding of the coin-rotation trading core of `binance-trade-bot`
(`binance_trade_bot/auto_trader.py` and
`binance_trade_bot/strategies/default_strategy.py`).

Prices, balances, fees and ratios are modelled as rationals.  The exchange
manager and the static configuration are modelled as a record of pure
functions (`Env`).  The persistent state (current coin, the pair table, the
coin list) is a record (`BotState`); order placement is tracked by counting
the invocations of `sell_alt` / `buy_alt` in the state.  A Python run-time
fault (using a `None` price or a `None` ratio in arithmetic) is modelled as
`Except.error ()`.
-/

namespace BTBot

structure Coin where
  symbol : String
  enabled : Bool
  deriving DecidableEq, Repr

structure Pair where
  from_coin : Coin
  to_coin : Coin
  ratio : Option ℚ
  deriving DecidableEq, Repr

/-- The exchange manager (`BinanceAPIManager`) and the static configuration,
as read by the trader: all lookups are pure functions of the symbols. -/
structure Env where
  bridge : String
  get_currency_balance : String → ℚ
  get_ticker_price : String → Option ℚ
  get_min_notional : String → String → ℚ
  get_fee : String → String → Bool → ℚ
  sell_alt : String → String → Option ℚ
  buy_alt : String → String → Option ℚ
  use_margin : String
  scout_margin : ℚ
  scout_multiplier : ℚ
  current_coin_symbol : String
  supported_coin_list : List String

/-- The persistent database state plus the observable order side effects:
`sell_orders` / `buy_orders` count the calls made to `sell_alt` / `buy_alt`. -/
structure BotState where
  current_coin : Option String
  pairs : List Pair
  coins : List Coin
  sell_orders : Nat
  buy_orders : Nat
  deriving DecidableEq, Repr

/-- Modelled from the spec: `getPairsFrom(Asset) → sequence of Pair` of the
Position Store (`database.py` is not part of the given sources) — the pairs
whose from-asset is the given coin and whose to-asset is enabled
("For every Pair whose from_asset equals heldAsset and whose to_asset is
enabled"). -/
def get_pairs_from (st : BotState) (coin : Coin) : List Pair :=
  st.pairs.filter (fun p => p.from_coin.symbol == coin.symbol && p.to_coin.enabled)

/-- One pair's treatment inside `update_trade_threshold`'s loop: pairs whose
to-coin is the given coin get `ratio := from_coin_price / coin_price`, pairs
whose from-coin price does not resolve are skipped. -/
def update_pair_for_threshold (env : Env) (coin : Coin) (cp : ℚ) (p : Pair) : Pair :=
  if p.to_coin.symbol = coin.symbol then
    match env.get_ticker_price (p.from_coin.symbol ++ env.bridge) with
    | none => p
    | some fp => { p with ratio := some (fp / cp) }
  else p

/-- `AutoTrader.update_trade_threshold`: with a `None` coin price it returns
immediately; otherwise every pair with the given to-coin has its ratio
recomputed from a fresh from-coin price. -/
def update_trade_threshold (env : Env) (st : BotState) (coin : Coin)
    (coin_price : Option ℚ) : BotState :=
  match coin_price with
  | none => st
  | some cp => { st with pairs := st.pairs.map (update_pair_for_threshold env coin cp) }

/-- The buy leg of `AutoTrader.transaction_through_bridge`: `buy_alt` is
invoked; on success the current coin is set to the pair's to-coin and
`update_trade_threshold` runs with the fill price before returning the
result; on failure the state is otherwise untouched and `None` is returned. -/
def transaction_buy_leg (env : Env) (st : BotState) (pr : Pair) : BotState × Option ℚ :=
  match env.buy_alt pr.to_coin.symbol env.bridge with
  | none => ({ st with buy_orders := st.buy_orders + 1 }, none)
  | some result_price =>
    (update_trade_threshold env
      { st with buy_orders := st.buy_orders + 1,
                current_coin := some pr.to_coin.symbol }
      pr.to_coin (some result_price), some result_price)

/-- `AutoTrader.transaction_through_bridge`: sell the from-coin for the bridge
when the balance is truthy and `balance * price` exceeds the minimum notional
(a missing from-coin price with a non-zero balance faults in the source, hence
`Except.error`); a failed sell aborts with `None`; otherwise the buy leg runs. -/
def transaction_through_bridge (env : Env) (st : BotState) (pr : Pair) :
    Except Unit (BotState × Option ℚ) :=
  if env.get_currency_balance pr.from_coin.symbol = 0 then
    .ok (transaction_buy_leg env st pr)
  else
    match env.get_ticker_price (pr.from_coin.symbol ++ env.bridge) with
    | none => .error ()
    | some fp =>
      if env.get_min_notional pr.from_coin.symbol env.bridge <
          env.get_currency_balance pr.from_coin.symbol * fp then
        match env.sell_alt pr.from_coin.symbol env.bridge with
        | none => .ok ({ st with sell_orders := st.sell_orders + 1 }, none)
        | some _ =>
          .ok (transaction_buy_leg env { st with sell_orders := st.sell_orders + 1 } pr)
      else
        .ok (transaction_buy_leg env st pr)

/-- The score computed by `AutoTrader._get_ratios` for one pair, given the
held coin's price, the optional coin's price and the pair's stored ratio. -/
def pair_score (env : Env) (coin_price opt_price r : ℚ) (p : Pair) : ℚ :=
  let coin_opt_coin_ratio := coin_price / opt_price
  let from_fee := env.get_fee p.from_coin.symbol env.bridge true
  let to_fee := env.get_fee p.to_coin.symbol env.bridge false
  let transaction_fee := from_fee + to_fee - from_fee * to_fee
  if env.use_margin = "yes" then
    (1 - transaction_fee) * coin_opt_coin_ratio / r - 1 - env.scout_margin / 100
  else
    (coin_opt_coin_ratio - transaction_fee * env.scout_multiplier * coin_opt_coin_ratio) - r

/-- The loop of `AutoTrader._get_ratios` over the pairs from the held coin:
pairs whose to-coin price does not resolve are skipped; a pair with an unset
stored ratio would fault in the source (`None` in arithmetic), hence
`Except.error`. -/
def get_ratios_list (env : Env) (coin_price : ℚ) : List Pair → Except Unit (List (Pair × ℚ))
  | [] => .ok []
  | p :: ps =>
    match env.get_ticker_price (p.to_coin.symbol ++ env.bridge) with
    | none => get_ratios_list env coin_price ps
    | some opt_price =>
      match p.ratio with
      | none => .error ()
      | some r =>
        match get_ratios_list env coin_price ps with
        | .error e => .error e
        | .ok rest => .ok ((p, pair_score env coin_price opt_price r p) :: rest)

/-- `AutoTrader._get_ratios`: the score mapping for the pairs from the held
coin (an association list in pair-iteration order, standing for the insertion
ordered Python dict). -/
def get_ratios (env : Env) (st : BotState) (coin : Coin) (coin_price : ℚ) :
    Except Unit (List (Pair × ℚ)) :=
  get_ratios_list env coin_price (get_pairs_from st coin)

/-- Python's `max(d, key=d.get)` over an insertion-ordered dict: the first
entry attaining the maximal value. -/
def max_by_value : List (Pair × ℚ) → Option (Pair × ℚ)
  | [] => none
  | x :: xs =>
    match max_by_value xs with
    | none => some x
    | some y => if x.2 < y.2 then some y else some x

/-- The selection step of `AutoTrader._jump_to_best_coin`: keep only the
strictly positive scores and pick the pair with the largest one, if any. -/
def jump_selection (env : Env) (st : BotState) (coin : Coin) (coin_price : ℚ) :
    Except Unit (Option Pair) :=
  match get_ratios env st coin coin_price with
  | .error e => .error e
  | .ok rd => .ok ((max_by_value (rd.filter (fun kv => decide (0 < kv.2)))).map Prod.fst)

/-- `AutoTrader._jump_to_best_coin`: compute the ratio dict, keep the strictly
positive entries, and if any remain run `transaction_through_bridge` on the
pair with the greatest score. -/
def jump_to_best_coin (env : Env) (st : BotState) (coin : Coin) (coin_price : ℚ) :
    Except Unit BotState :=
  match jump_selection env st coin coin_price with
  | .error e => .error e
  | .ok none => .ok st
  | .ok (some best_pair) =>
    match transaction_through_bridge env st best_pair with
    | .error e => .error e
    | .ok (st1, _) => .ok st1

/-- `AutoTrader._initialize_single_pair` (renamed: `init_single_pair`): a pair
with a disabled endpoint, or one of whose bridge prices does not resolve, is
left untouched; otherwise its ratio becomes `from_price / to_price`. -/
def init_single_pair (env : Env) (p : Pair) : Pair :=
  if !p.from_coin.enabled || !p.to_coin.enabled then p
  else
    match env.get_ticker_price (p.from_coin.symbol ++ env.bridge) with
    | none => p
    | some from_coin_price =>
      match env.get_ticker_price (p.to_coin.symbol ++ env.bridge) with
      | none => p
      | some to_coin_price => { p with ratio := some (from_coin_price / to_coin_price) }

/-- `AutoTrader.initialize_trade_thresholds` (renamed: `init_trade_thresholds`):
only the pairs whose ratio is unset (`Pair.ratio.is_(None)` filter) are
processed, each independently by `init_single_pair`. -/
def init_trade_thresholds (env : Env) (st : BotState) : BotState :=
  { st with pairs := st.pairs.map (fun p => if p.ratio.isSome then p else init_single_pair env p) }

/-- Modelled from the spec: `getAllAssets() → sequence of Asset` of the
Position Store (`database.py` is not part of the given sources) — the
configured coin list, in its external enumeration order. -/
def get_coins (st : BotState) : List Coin :=
  st.coins

/-- The loop of `AutoTrader.bridge_scout` over the configured coins: skip a
coin whose bridge price does not resolve; compute its score mapping; if some
score is positive, or the idle bridge balance does not exceed the coin's
minimum notional, move on; otherwise buy the coin and return it. -/
def bridge_scout_loop (env : Env) (st : BotState) (bridge_balance : ℚ) :
    List Coin → Except Unit (BotState × Option Coin)
  | [] => .ok (st, none)
  | c :: cs =>
    match env.get_ticker_price (c.symbol ++ env.bridge) with
    | none => bridge_scout_loop env st bridge_balance cs
    | some current_coin_price =>
      match get_ratios env st c current_coin_price with
      | .error e => .error e
      | .ok rd =>
        if rd.any (fun kv => decide (0 < kv.2)) then
          bridge_scout_loop env st bridge_balance cs
        else
          if env.get_min_notional c.symbol env.bridge < bridge_balance then
            .ok ({ st with buy_orders := st.buy_orders + 1 }, some c)
          else
            bridge_scout_loop env st bridge_balance cs

/-- `AutoTrader.bridge_scout`: with the idle bridge balance, scan the coins in
enumeration order for one to buy. -/
def bridge_scout (env : Env) (st : BotState) : Except Unit (BotState × Option Coin) :=
  bridge_scout_loop env st (env.get_currency_balance env.bridge) (get_coins st)

/-- `Strategy.bridge_scout` (default strategy): a no-op while the current
coin's balance exceeds its minimum notional; otherwise run the trader's
`bridge_scout` and persist a returned coin as the current coin.  A missing
current coin faults in the source, hence `Except.error`. -/
def strategy_bridge_scout (env : Env) (st : BotState) : Except Unit BotState :=
  match st.current_coin with
  | none => .error ()
  | some cur =>
    if env.get_min_notional cur env.bridge < env.get_currency_balance cur then
      .ok st
    else
      match bridge_scout env st with
      | .error e => .error e
      | .ok (st1, none) => .ok st1
      | .ok (st1, some c) => .ok { st1 with current_coin := some c.symbol }

/-- `Strategy.initialize_current_coin` (renamed: `init_current_coin`): with a
persisted current coin it does nothing.  Otherwise, the configured symbol is
used (or, when it is empty, `pick` stands for `random.choice` over the
supported list); a symbol outside the supported list terminates the process
(`sys.exit`, modelled as `none`); an empty configured symbol additionally
buys the chosen coin with the bridge currency. -/
def init_current_coin (env : Env) (st : BotState) (pick : String) : Option BotState :=
  match st.current_coin with
  | some _ => some st
  | none =>
    let sym := if env.current_coin_symbol = "" then pick else env.current_coin_symbol
    if sym ∈ env.supported_coin_list then
      let st1 : BotState := { st with current_coin := some sym }
      if env.current_coin_symbol = "" then
        some { st1 with buy_orders := st1.buy_orders + 1 }
      else
        some st1
    else
      none

/-! ### Concrete fixtures used by the witnesses -/

def coinBTC : Coin := ⟨"BTC", true⟩

def coinETH : Coin := ⟨"ETH", true⟩

def coinDOGE : Coin := ⟨"DOGE", false⟩

def pairBE : Pair := ⟨coinBTC, coinETH, some 3⟩

/-- A base environment: every price is 2, every balance 20, every minimum
notional 10, fees 0, sells fill at 1 and buys at 2, multiplier mode. -/
def envA : Env where
  bridge := "USDT"
  get_currency_balance := fun _ => 20
  get_ticker_price := fun _ => some 2
  get_min_notional := fun _ _ => 10
  get_fee := fun _ _ _ => 0
  sell_alt := fun _ _ => some 1
  buy_alt := fun _ _ => some 2
  use_margin := "no"
  scout_margin := 1
  scout_multiplier := 5
  current_coin_symbol := ""
  supported_coin_list := ["BTC", "ETH"]

def stA : BotState := ⟨some "BTC", [pairBE], [coinBTC, coinETH], 0, 0⟩

/-! ### Claims -/

/-- C10: if `update_trade_threshold` is called with a `None` coin price, it
returns immediately and every pair's stored ratio is left unchanged — the
state is returned as it was. -/
theorem update_trade_threshold_none_frame (env : Env) (st : BotState) (coin : Coin) :
    update_trade_threshold env st coin none = st := rfl

/-- C7: the strategy's `bridge_scout` never triggers a purchase while the held
asset's balance exceeds its minimum notional: it returns with the state
untouched (in particular no asset is bought and no order is placed). -/
theorem strategy_bridge_scout_noop (env : Env) (st : BotState) (cur : String)
    (hcur : st.current_coin = some cur)
    (hbal : env.get_min_notional cur env.bridge < env.get_currency_balance cur) :
    strategy_bridge_scout env st = .ok st := by
  unfold strategy_bridge_scout
  rw [hcur]
  simp [hbal]

theorem strategy_bridge_scout_noop_witness :
    strategy_bridge_scout envA stA = .ok stA :=
  strategy_bridge_scout_noop envA stA "BTC" rfl (by norm_num [envA])

/-- C9: at startup with no persisted held position, a configured non-empty
initial symbol outside the supported list terminates the process without
setting a held position, while an absent (empty) symbol makes the random pick
from the supported list the new held position (the source additionally buys
that pick with the bridge currency). -/
theorem init_current_coin_startup (env : Env) (st : BotState) (pick : String)
    (h0 : st.current_coin = none) :
    (env.current_coin_symbol ≠ "" →
      env.current_coin_symbol ∉ env.supported_coin_list →
      init_current_coin env st pick = none)
    ∧ (env.current_coin_symbol = "" → pick ∈ env.supported_coin_list →
      init_current_coin env st pick =
        some { st with current_coin := some pick, buy_orders := st.buy_orders + 1 }) := by
  unfold init_current_coin
  rw [h0]
  constructor
  · intro hne hnotin
    simp [hne, hnotin]
  · intro he hin
    simp [he, hin]

def stNoCoin : BotState := ⟨none, [pairBE], [coinBTC, coinETH], 0, 0⟩

def envBadSymbol : Env := { envA with current_coin_symbol := "XYZ" }

theorem init_current_coin_startup_witness :
    init_current_coin envBadSymbol stNoCoin "BTC" = none
    ∧ init_current_coin envA stNoCoin "ETH" =
        some { stNoCoin with current_coin := some "ETH",
                             buy_orders := stNoCoin.buy_orders + 1 } :=
  ⟨(init_current_coin_startup envBadSymbol stNoCoin "BTC" rfl).1
      (by simp [envBadSymbol, envA]) (by simp [envBadSymbol, envA]),
   (init_current_coin_startup envA stNoCoin "ETH" rfl).2 rfl (by simp [envA])⟩

/-- The value of the buy leg when `buy_alt` fails. -/
theorem transaction_buy_leg_of_none (env : Env) (st : BotState) (pr : Pair)
    (hbuy : env.buy_alt pr.to_coin.symbol env.bridge = none) :
    transaction_buy_leg env st pr = ({ st with buy_orders := st.buy_orders + 1 }, none) := by
  unfold transaction_buy_leg
  rw [hbuy]

/-- The value of the buy leg when `buy_alt` fills at `bp`. -/
theorem transaction_buy_leg_of_some (env : Env) (st : BotState) (pr : Pair) (bp : ℚ)
    (hbuy : env.buy_alt pr.to_coin.symbol env.bridge = some bp) :
    transaction_buy_leg env st pr =
      (update_trade_threshold env
        { st with buy_orders := st.buy_orders + 1,
                  current_coin := some pr.to_coin.symbol }
        pr.to_coin (some bp), some bp) := by
  unfold transaction_buy_leg
  rw [hbuy]

/-- The buy leg never touches the sell-order count. -/
theorem transaction_buy_leg_sell_orders (env : Env) (st : BotState) (pr : Pair) :
    (transaction_buy_leg env st pr).1.sell_orders = st.sell_orders := by
  unfold transaction_buy_leg
  cases env.buy_alt pr.to_coin.symbol env.bridge <;>
    simp [update_trade_threshold]

/-- The buy leg places exactly one buy order. -/
theorem transaction_buy_leg_buy_orders (env : Env) (st : BotState) (pr : Pair) :
    (transaction_buy_leg env st pr).1.buy_orders = st.buy_orders + 1 := by
  unfold transaction_buy_leg
  cases env.buy_alt pr.to_coin.symbol env.bridge <;>
    simp [update_trade_threshold]

/-- C8: when the from-coin balance times its bridge price is below the
minimum notional, `transaction_through_bridge` skips the sell leg rather than
failing — no sell order is placed — and the buy leg is still attempted. -/
theorem transaction_skip_sell (env : Env) (st : BotState) (pr : Pair) (fp : ℚ)
    (hfp : env.get_ticker_price (pr.from_coin.symbol ++ env.bridge) = some fp)
    (hlow : env.get_currency_balance pr.from_coin.symbol * fp <
      env.get_min_notional pr.from_coin.symbol env.bridge) :
    transaction_through_bridge env st pr = .ok (transaction_buy_leg env st pr)
    ∧ (transaction_buy_leg env st pr).1.sell_orders = st.sell_orders
    ∧ (transaction_buy_leg env st pr).1.buy_orders = st.buy_orders + 1 := by
  refine ⟨?_, transaction_buy_leg_sell_orders env st pr,
    transaction_buy_leg_buy_orders env st pr⟩
  unfold transaction_through_bridge
  by_cases hb : env.get_currency_balance pr.from_coin.symbol = 0
  · simp [hb]
  · rw [if_neg hb, hfp]
    simp [lt_asymm hlow]

def envLowBalance : Env := { envA with get_currency_balance := fun _ => 1 }

theorem transaction_skip_sell_witness :
    transaction_through_bridge envLowBalance stA pairBE =
      .ok (transaction_buy_leg envLowBalance stA pairBE)
    ∧ (transaction_buy_leg envLowBalance stA pairBE).1.sell_orders = stA.sell_orders
    ∧ (transaction_buy_leg envLowBalance stA pairBE).1.buy_orders = stA.buy_orders + 1 :=
  transaction_skip_sell envLowBalance stA pairBE 2 rfl
    (by norm_num [envLowBalance, envA, stA, pairBE, coinBTC])

/-- C1: `transaction_through_bridge` mutates the held position only on full
success.  First conjunct: a failed sell after a passed notional check returns
`None` with only the sell-order count advanced — no buy order, held position
and pair table unchanged.  Second conjunct: whenever the buy leg fails, any
non-faulting run returns `None` with the held position and pair table
unchanged.  Third conjunct: a failed buy after a successful sell returns
`None` leaving the already placed sell order in place (not rolled back). -/
theorem transaction_failure_frame (env : Env) (st : BotState) (pr : Pair) (fp : ℚ)
    (hfp : env.get_ticker_price (pr.from_coin.symbol ++ env.bridge) = some fp) :
    (env.get_currency_balance pr.from_coin.symbol ≠ 0 →
      env.get_min_notional pr.from_coin.symbol env.bridge <
        env.get_currency_balance pr.from_coin.symbol * fp →
      env.sell_alt pr.from_coin.symbol env.bridge = none →
      transaction_through_bridge env st pr =
        .ok ({ st with sell_orders := st.sell_orders + 1 }, none))
    ∧ (env.buy_alt pr.to_coin.symbol env.bridge = none →
      ∀ st2 r, transaction_through_bridge env st pr = .ok (st2, r) →
        r = none ∧ st2.current_coin = st.current_coin ∧ st2.pairs = st.pairs)
    ∧ (env.get_currency_balance pr.from_coin.symbol ≠ 0 →
      env.get_min_notional pr.from_coin.symbol env.bridge <
        env.get_currency_balance pr.from_coin.symbol * fp →
      ∀ q, env.sell_alt pr.from_coin.symbol env.bridge = some q →
      env.buy_alt pr.to_coin.symbol env.bridge = none →
      transaction_through_bridge env st pr =
        .ok ({ st with sell_orders := st.sell_orders + 1,
                       buy_orders := st.buy_orders + 1 }, none)) := by
  refine ⟨?_, ?_, ?_⟩
  · intro hb hgt hsell
    unfold transaction_through_bridge
    simp only [if_neg hb, hfp, if_pos hgt, hsell]
  · intro hbuy st2 r h
    unfold transaction_through_bridge at h
    split at h
    · rw [transaction_buy_leg_of_none env st pr hbuy] at h
      simp only [Except.ok.injEq, Prod.mk.injEq] at h
      obtain ⟨h1, h2⟩ := h
      subst h1
      subst h2
      exact ⟨rfl, rfl, rfl⟩
    · split at h
      · exact Except.noConfusion h
      · split at h
        · split at h
          · simp only [Except.ok.injEq, Prod.mk.injEq] at h
            obtain ⟨h1, h2⟩ := h
            subst h1
            subst h2
            exact ⟨rfl, rfl, rfl⟩
          · rw [transaction_buy_leg_of_none env _ pr hbuy] at h
            simp only [Except.ok.injEq, Prod.mk.injEq] at h
            obtain ⟨h1, h2⟩ := h
            subst h1
            subst h2
            exact ⟨rfl, rfl, rfl⟩
        · rw [transaction_buy_leg_of_none env st pr hbuy] at h
          simp only [Except.ok.injEq, Prod.mk.injEq] at h
          obtain ⟨h1, h2⟩ := h
          subst h1
          subst h2
          exact ⟨rfl, rfl, rfl⟩
  · intro hb hgt q hsell hbuy
    unfold transaction_through_bridge
    simp only [if_neg hb, hfp, if_pos hgt, hsell]
    rw [transaction_buy_leg_of_none env _ pr hbuy]

def envSellFail : Env := { envA with sell_alt := fun _ _ => none }

def envBuyFail : Env := { envA with buy_alt := fun _ _ => none }

theorem transaction_failure_frame_witness :
    transaction_through_bridge envSellFail stA pairBE =
      .ok ({ stA with sell_orders := stA.sell_orders + 1 }, none)
    ∧ transaction_through_bridge envBuyFail stA pairBE =
      .ok ({ stA with sell_orders := stA.sell_orders + 1,
                      buy_orders := stA.buy_orders + 1 }, none) :=
  ⟨(transaction_failure_frame envSellFail stA pairBE 2 rfl).1
      (by norm_num [envSellFail, envA]) (by norm_num [envSellFail, envA]) rfl,
   (transaction_failure_frame envBuyFail stA pairBE 2 rfl).2.2
      (by norm_num [envBuyFail, envA]) (by norm_num [envBuyFail, envA]) 1 rfl rfl⟩

/-- C4: if both legs of `transaction_through_bridge` succeed, then before the
call returns the held position equals the pair's to-coin and the threshold
updater has run for the new held asset: every pair whose to-coin matches and
whose from-coin price resolves gets `ratio = from_price / buy_price`, and
pairs whose from-coin price does not resolve keep their existing ratio. -/
theorem transaction_success_commit (env : Env) (st : BotState) (pr : Pair)
    (st2 : BotState) (bp : ℚ)
    (h : transaction_through_bridge env st pr = .ok (st2, some bp)) :
    env.buy_alt pr.to_coin.symbol env.bridge = some bp
    ∧ st2.current_coin = some pr.to_coin.symbol
    ∧ st2.pairs = st.pairs.map (fun q =>
        if q.to_coin.symbol = pr.to_coin.symbol then
          match env.get_ticker_price (q.from_coin.symbol ++ env.bridge) with
          | none => q
          | some fq => { q with ratio := some (fq / bp) }
        else q) := by
  have key : ∀ st0 : BotState, st0.pairs = st.pairs →
      transaction_buy_leg env st0 pr = (st2, some bp) →
      env.buy_alt pr.to_coin.symbol env.bridge = some bp
      ∧ st2.current_coin = some pr.to_coin.symbol
      ∧ st2.pairs = st.pairs.map (fun q =>
          if q.to_coin.symbol = pr.to_coin.symbol then
            match env.get_ticker_price (q.from_coin.symbol ++ env.bridge) with
            | none => q
            | some fq => { q with ratio := some (fq / bp) }
          else q) := by
    intro st0 hp hleg
    cases hbuy : env.buy_alt pr.to_coin.symbol env.bridge with
    | none =>
      rw [transaction_buy_leg_of_none env st0 pr hbuy] at hleg
      simp only [Prod.mk.injEq] at hleg
      exact absurd hleg.2 (by simp)
    | some price =>
      rw [transaction_buy_leg_of_some env st0 pr price hbuy] at hleg
      simp only [Prod.mk.injEq, Option.some.injEq] at hleg
      obtain ⟨h1, h2⟩ := hleg
      subst h2
      refine ⟨rfl, ?_, ?_⟩
      · rw [← h1]
        rfl
      · rw [← h1]
        show st0.pairs.map (update_pair_for_threshold env pr.to_coin price) = _
        rw [hp]
        rfl
  unfold transaction_through_bridge at h
  split at h
  · injection h with h2
    exact key st rfl h2
  · split at h
    · exact Except.noConfusion h
    · split at h
      · split at h
        · injection h with h2
          injection h2 with ha hb
          exact Option.noConfusion hb
        · injection h with h2
          exact key { st with sell_orders := st.sell_orders + 1 } rfl h2
      · injection h with h2
        exact key st rfl h2

theorem transaction_success_commit_witness :
    envA.buy_alt pairBE.to_coin.symbol envA.bridge = some 2
    ∧ (⟨some "ETH", [⟨coinBTC, coinETH, some 1⟩], [coinBTC, coinETH], 1, 1⟩ :
        BotState).current_coin = some pairBE.to_coin.symbol
    ∧ (⟨some "ETH", [⟨coinBTC, coinETH, some 1⟩], [coinBTC, coinETH], 1, 1⟩ :
        BotState).pairs = stA.pairs.map (fun q =>
        if q.to_coin.symbol = pairBE.to_coin.symbol then
          match envA.get_ticker_price (q.from_coin.symbol ++ envA.bridge) with
          | none => q
          | some fq => { q with ratio := some (fq / 2) }
        else q) :=
  transaction_success_commit envA stA pairBE
    ⟨some "ETH", [⟨coinBTC, coinETH, some 1⟩], [coinBTC, coinETH], 1, 1⟩ 2
    (by norm_num [transaction_through_bridge, transaction_buy_leg,
      update_trade_threshold, update_pair_for_threshold, envA, stA, pairBE,
      coinBTC, coinETH])

/-- Membership extraction for the ratio loop: a scanned pair with a set
stored ratio and a resolvable to-coin price contributes its score to the
resulting mapping. -/
theorem get_ratios_list_mem (env : Env) (cp : ℚ) :
    ∀ (L : List Pair) (l : List (Pair × ℚ)), get_ratios_list env cp L = .ok l →
      ∀ p r op, p ∈ L → p.ratio = some r →
        env.get_ticker_price (p.to_coin.symbol ++ env.bridge) = some op →
        (p, pair_score env cp op r p) ∈ l := by
  intro L
  induction L with
  | nil =>
    intro l h p r op hp
    exact absurd hp (List.not_mem_nil p)
  | cons q qs ih =>
    intro l h p r op hp hr hop
    unfold get_ratios_list at h
    rcases List.mem_cons.mp hp with rfl | hp2
    · simp only [hop, hr] at h
      cases hrec : get_ratios_list env cp qs with
      | error e =>
        rw [hrec] at h
        exact Except.noConfusion h
      | ok rest =>
        rw [hrec] at h
        injection h with h2
        rw [← h2]
        exact List.mem_cons_self _ _
    · cases hq : env.get_ticker_price (q.to_coin.symbol ++ env.bridge) with
      | none =>
        simp only [hq] at h
        exact ih l h p r op hp2 hr hop
      | some oq =>
        simp only [hq] at h
        cases hqr : q.ratio with
        | none =>
          rw [hqr] at h
          exact Except.noConfusion h
        | some rq =>
          simp only [hqr] at h
          cases hrec : get_ratios_list env cp qs with
          | error e =>
            rw [hrec] at h
            exact Except.noConfusion h
          | ok rest =>
            rw [hrec] at h
            injection h with h2
            rw [← h2]
            exact List.mem_cons_of_mem _ (ih rest hrec p r op hp2 hr hop)

/-- C2: for every pair with a set stored ratio and a resolvable to-coin
price, `_get_ratios` assigns it the score based on the composed fee
`feeFrom + feeTo − feeFrom·feeTo` and the cross rate `heldPrice / toPrice`:
`(1 − fee)·cross/storedRatio − 1 − scoutMargin/100` in margin mode,
`cross − fee·scoutMultiplier·cross − storedRatio` in multiplier mode. -/
theorem get_ratios_score_formula (env : Env) (st : BotState) (coin : Coin)
    (cp : ℚ) (l : List (Pair × ℚ)) (p : Pair) (r op : ℚ)
    (h : get_ratios env st coin cp = .ok l)
    (hp : p ∈ get_pairs_from st coin)
    (hr : p.ratio = some r)
    (hop : env.get_ticker_price (p.to_coin.symbol ++ env.bridge) = some op) :
    (p, if env.use_margin = "yes" then
          (1 - (env.get_fee p.from_coin.symbol env.bridge true +
                env.get_fee p.to_coin.symbol env.bridge false -
                env.get_fee p.from_coin.symbol env.bridge true *
                  env.get_fee p.to_coin.symbol env.bridge false)) * (cp / op) / r
            - 1 - env.scout_margin / 100
        else
          cp / op -
            (env.get_fee p.from_coin.symbol env.bridge true +
             env.get_fee p.to_coin.symbol env.bridge false -
             env.get_fee p.from_coin.symbol env.bridge true *
               env.get_fee p.to_coin.symbol env.bridge false) *
              env.scout_multiplier * (cp / op) - r) ∈ l :=
  get_ratios_list_mem env cp (get_pairs_from st coin) l h p r op hp hr hop

theorem get_ratios_score_formula_witness :
    (pairBE, pair_score envA 2 2 3 pairBE) ∈ [(pairBE, pair_score envA 2 2 3 pairBE)] :=
  get_ratios_score_formula envA stA coinBTC 2
    [(pairBE, pair_score envA 2 2 3 pairBE)] pairBE 3 2 rfl (by decide) rfl rfl

/-- An empty maximum means an empty list. -/
theorem max_by_value_eq_none :
    ∀ L : List (Pair × ℚ), max_by_value L = none → L = [] := by
  intro L h
  cases L with
  | nil => rfl
  | cons a as =>
    unfold max_by_value at h
    cases hm : max_by_value as with
    | none =>
      simp only [hm] at h
      exact Option.noConfusion h
    | some y =>
      simp only [hm] at h
      by_cases hlt : a.2 < y.2
      · rw [if_pos hlt] at h
        exact Option.noConfusion h
      · rw [if_neg hlt] at h
        exact Option.noConfusion h

/-- The selected maximum is an element of the list. -/
theorem max_by_value_mem :
    ∀ (L : List (Pair × ℚ)) (x : Pair × ℚ), max_by_value L = some x → x ∈ L := by
  intro L
  induction L with
  | nil =>
    intro x h
    exact Option.noConfusion h
  | cons a as ih =>
    intro x h
    unfold max_by_value at h
    cases hm : max_by_value as with
    | none =>
      simp only [hm] at h
      injection h with h2
      rw [← h2]
      exact List.mem_cons_self _ _
    | some y =>
      simp only [hm] at h
      by_cases hlt : a.2 < y.2
      · rw [if_pos hlt] at h
        injection h with h2
        rw [← h2]
        exact List.mem_cons_of_mem _ (ih y hm)
      · rw [if_neg hlt] at h
        injection h with h2
        rw [← h2]
        exact List.mem_cons_self _ _

/-- The selected maximum dominates every value in the list. -/
theorem max_by_value_ge :
    ∀ (L : List (Pair × ℚ)) (x : Pair × ℚ), max_by_value L = some x →
      ∀ y ∈ L, y.2 ≤ x.2 := by
  intro L
  induction L with
  | nil =>
    intro x h
    exact Option.noConfusion h
  | cons a as ih =>
    intro x h y hy
    unfold max_by_value at h
    cases hm : max_by_value as with
    | none =>
      simp only [hm] at h
      injection h with h2
      rcases List.mem_cons.mp hy with rfl | hy2
      · rw [← h2]
      · rw [max_by_value_eq_none as hm] at hy2
        exact absurd hy2 (List.not_mem_nil y)
    | some z =>
      simp only [hm] at h
      by_cases hlt : a.2 < z.2
      · rw [if_pos hlt] at h
        injection h with h2
        rw [← h2]
        rcases List.mem_cons.mp hy with rfl | hy2
        · exact le_of_lt hlt
        · exact ih z hm y hy2
      · rw [if_neg hlt] at h
        injection h with h2
        rw [← h2]
        rcases List.mem_cons.mp hy with rfl | hy2
        · exact le_refl _
        · exact le_trans (ih z hm y hy2) (not_lt.mp hlt)

/-- C3: the jump selector acts only on strictly positive scores.  If every
score in the mapping produced by `_get_ratios` is non-positive, nothing is
selected and `_jump_to_best_coin` leaves the state untouched (no execution
call).  Whatever pair is selected carries a strictly positive score that is
maximal among the strictly positive ones, and some pair is selected whenever
a strictly positive score exists. -/
theorem jump_selector_positive_max (env : Env) (st : BotState) (coin : Coin)
    (cp : ℚ) (rd : List (Pair × ℚ))
    (h : get_ratios env st coin cp = .ok rd) :
    ((∀ kv ∈ rd, kv.2 ≤ 0) → jump_selection env st coin cp = .ok none ∧
        jump_to_best_coin env st coin cp = .ok st)
    ∧ (∀ p, jump_selection env st coin cp = .ok (some p) →
        ∃ s, (p, s) ∈ rd ∧ 0 < s ∧ ∀ kv ∈ rd, 0 < kv.2 → kv.2 ≤ s)
    ∧ ((∃ kv ∈ rd, 0 < kv.2) → ∃ p, jump_selection env st coin cp = .ok (some p)) := by
  have hsel : jump_selection env st coin cp =
      .ok ((max_by_value (rd.filter (fun kv => decide (0 < kv.2)))).map Prod.fst) := by
    unfold jump_selection
    simp only [h]
  refine ⟨?_, ?_, ?_⟩
  · intro hall
    have hfilter : rd.filter (fun kv => decide (0 < kv.2)) = [] := by
      rw [List.filter_eq_nil_iff]
      intro a ha
      simp only [decide_eq_true_eq, not_lt]
      exact hall a ha
    have h1 : jump_selection env st coin cp = .ok none := by
      rw [hsel, hfilter]
      rfl
    refine ⟨h1, ?_⟩
    unfold jump_to_best_coin
    rw [h1]
  · intro p hp
    rw [hsel] at hp
    injection hp with hp2
    cases hm : max_by_value (rd.filter (fun kv => decide (0 < kv.2))) with
    | none =>
      rw [hm] at hp2
      exact Option.noConfusion hp2
    | some x =>
      rw [hm] at hp2
      simp only [Option.map_some'] at hp2
      injection hp2 with hx
      have hxmem := max_by_value_mem _ x hm
      have hxrd : x ∈ rd := (List.mem_filter.mp hxmem).1
      have hxpos : 0 < x.2 := of_decide_eq_true (List.mem_filter.mp hxmem).2
      refine ⟨x.2, ?_, hxpos, ?_⟩
      · rw [← hx]
        simpa using hxrd
      · intro kv hkv hkvpos
        exact max_by_value_ge _ x hm kv
          (List.mem_filter.mpr ⟨hkv, decide_eq_true hkvpos⟩)
  · rintro ⟨kv, hkv, hkvpos⟩
    have hmem : kv ∈ rd.filter (fun kv => decide (0 < kv.2)) :=
      List.mem_filter.mpr ⟨hkv, decide_eq_true hkvpos⟩
    cases hm : max_by_value (rd.filter (fun kv => decide (0 < kv.2))) with
    | none =>
      rw [max_by_value_eq_none _ hm] at hmem
      exact absurd hmem (List.not_mem_nil kv)
    | some x =>
      refine ⟨x.1, ?_⟩
      rw [hsel, hm]
      rfl

theorem jump_selector_positive_max_witness :
    jump_selection envA stA coinBTC 2 = .ok none ∧
    jump_to_best_coin envA stA coinBTC 2 = .ok stA :=
  (jump_selector_positive_max envA stA coinBTC 2
      [(pairBE, pair_score envA 2 2 3 pairBE)] rfl).1
    (by
      intro kv hkv
      rcases List.mem_singleton.mp hkv with rfl
      have hne : ¬(("no" : String) = "yes") := by decide
      norm_num [pair_score, envA, stA, pairBE, coinBTC, coinETH, hne])

def pairC5 : Pair := ⟨coinDOGE, coinETH, none⟩

def stC5 : BotState := ⟨some "DOGE", [pairC5], [coinDOGE, coinETH], 0, 0⟩

/-- C5 counterexample: a pair with an unset ratio whose both price lookups
succeed but whose from-coin is disabled is left untouched by one run of the
threshold initializer — its ratio is not set to `fromPrice / toPrice`. -/
theorem init_trade_thresholds_disabled_cex :
    pairC5 ∈ stC5.pairs
    ∧ pairC5.ratio = none
    ∧ envA.get_ticker_price (pairC5.from_coin.symbol ++ envA.bridge) = some 2
    ∧ envA.get_ticker_price (pairC5.to_coin.symbol ++ envA.bridge) = some 2
    ∧ (init_trade_thresholds envA stC5).pairs = [pairC5]
    ∧ pairC5.ratio ≠ some ((2 : ℚ) / 2) :=
  ⟨by decide, rfl, rfl, rfl, rfl, by simp [pairC5]⟩

/-- C5 (amended): the threshold initializer is idempotent — a pair whose
ratio is already set is left unchanged by one or two runs — and one run sets
`ratio = fromPrice / toPrice` for every pair with unset ratio whose both
coins are enabled and whose both price lookups succeed. -/
theorem init_trade_thresholds_spec (env : Env) (st : BotState) (i : ℕ) (p : Pair)
    (hp : st.pairs[i]? = some p) :
    (∀ r, p.ratio = some r →
      (init_trade_thresholds env st).pairs[i]? = some p
      ∧ (init_trade_thresholds env (init_trade_thresholds env st)).pairs[i]? = some p)
    ∧ (∀ fp tp, p.ratio = none →
      p.from_coin.enabled = true → p.to_coin.enabled = true →
      env.get_ticker_price (p.from_coin.symbol ++ env.bridge) = some fp →
      env.get_ticker_price (p.to_coin.symbol ++ env.bridge) = some tp →
      (init_trade_thresholds env st).pairs[i]? =
        some { p with ratio := some (fp / tp) }) := by
  have hmap : ∀ s : BotState, (init_trade_thresholds env s).pairs[i]? =
      s.pairs[i]?.map (fun q => if q.ratio.isSome then q else init_single_pair env q) := by
    intro s
    unfold init_trade_thresholds
    exact List.getElem?_map _ _ _
  constructor
  · intro r hr
    have hfix : (if p.ratio.isSome then p else init_single_pair env p) = p := by
      rw [hr]
      rfl
    have h1 : (init_trade_thresholds env st).pairs[i]? = some p := by
      rw [hmap, hp, Option.map_some', hfix]
    refine ⟨h1, ?_⟩
    rw [hmap, h1, Option.map_some', hfix]
  · intro fp tp hr he1 he2 hfp htp
    rw [hmap, hp, Option.map_some']
    have : (if p.ratio.isSome then p else init_single_pair env p) =
        { p with ratio := some (fp / tp) } := by
      rw [hr]
      show init_single_pair env p = _
      unfold init_single_pair
      rw [he1, he2, hfp, htp]
      rfl
    rw [this]

theorem init_trade_thresholds_spec_witness :
    (init_trade_thresholds envA stA).pairs[0]? = some pairBE
    ∧ (init_trade_thresholds envA (init_trade_thresholds envA stA)).pairs[0]? =
        some pairBE :=
  (init_trade_thresholds_spec envA stA 0 pairBE rfl).1 3 rfl

/-- A scan over pairs with set ratios never faults. -/
theorem get_ratios_list_isOk (env : Env) (cp : ℚ) :
    ∀ L : List Pair, (∀ p ∈ L, p.ratio.isSome = true) →
      ∃ l, get_ratios_list env cp L = .ok l := by
  intro L
  induction L with
  | nil =>
    intro _
    exact ⟨[], rfl⟩
  | cons q qs ih =>
    intro h
    obtain ⟨l, hl⟩ := ih (fun p hp => h p (List.mem_cons_of_mem q hp))
    unfold get_ratios_list
    cases hq : env.get_ticker_price (q.to_coin.symbol ++ env.bridge) with
    | none =>
      refine ⟨l, ?_⟩
      simp only [hq]
      exact hl
    | some oq =>
      cases hqr : q.ratio with
      | none =>
        have hqs := h q (List.mem_cons_self q qs)
        rw [hqr] at hqs
        exact absurd hqs (by simp)
      | some rq =>
        refine ⟨(q, pair_score env cp oq rq q) :: l, ?_⟩
        simp only [hq, hqr, hl]

/-- The loop condition of `bridge_scout` for one coin, phrased as the spec
does: its bridge price resolves, every score of its mapping is non-positive,
and the idle bridge balance exceeds its minimum notional. -/
def bridge_coin_qualifies (env : Env) (st : BotState) (bb : ℚ) (c : Coin) : Bool :=
  match env.get_ticker_price (c.symbol ++ env.bridge) with
  | none => false
  | some cp =>
    match get_ratios env st c cp with
    | .error _ => false
    | .ok rd =>
      !(rd.any fun kv => decide (0 < kv.2)) &&
        decide (env.get_min_notional c.symbol env.bridge < bb)

/-- The `bridge_scout` loop buys and returns exactly the first qualifying
coin of the enumeration, and places no order when none qualifies. -/
theorem bridge_scout_loop_find (env : Env) (st : BotState) (bb : ℚ)
    (h : ∀ p ∈ st.pairs, p.ratio.isSome = true) :
    ∀ cs : List Coin, bridge_scout_loop env st bb cs =
      .ok (match cs.find? (bridge_coin_qualifies env st bb) with
           | none => (st, none)
           | some c => ({ st with buy_orders := st.buy_orders + 1 }, some c)) := by
  intro cs
  induction cs with
  | nil => rfl
  | cons c cs ih =>
    have hsub : ∀ p ∈ get_pairs_from st c, p.ratio.isSome = true := by
      intro p hp
      exact h p (List.mem_of_mem_filter hp)
    unfold bridge_scout_loop
    cases hc : env.get_ticker_price (c.symbol ++ env.bridge) with
    | none =>
      have hq : bridge_coin_qualifies env st bb c = false := by
        unfold bridge_coin_qualifies
        rw [hc]
      simp only [hc, List.find?_cons, hq]
      exact ih
    | some cp =>
      obtain ⟨rd, hrd⟩ := get_ratios_list_isOk env cp (get_pairs_from st c) hsub
      have hrd2 : get_ratios env st c cp = .ok rd := hrd
      cases hany : rd.any (fun kv => decide (0 < kv.2)) with
      | true =>
        have hq : bridge_coin_qualifies env st bb c = false := by
          unfold bridge_coin_qualifies
          simp [hc, hrd2, hany]
        simp only [hc, hrd2, hany, List.find?_cons, hq]
        simpa using ih
      | false =>
        by_cases hbb : env.get_min_notional c.symbol env.bridge < bb
        · have hq : bridge_coin_qualifies env st bb c = true := by
            unfold bridge_coin_qualifies
            simp [hc, hrd2, hany, hbb]
          simp [hc, hrd2, hany, List.find?_cons, hq, hbb]
        · have hq : bridge_coin_qualifies env st bb c = false := by
            unfold bridge_coin_qualifies
            simp [hc, hrd2, hany, hbb]
          simp only [hc, hrd2, hany, List.find?_cons, hq]
          simpa [hbb] using ih

/-- C6: `bridge_scout` buys and returns the first coin of the enumeration
whose score mapping has no strictly positive entry and whose minimum notional
is exceeded by the idle bridge balance; if no coin qualifies it returns no
coin and places no order. -/
theorem bridge_scout_first_qualifying (env : Env) (st : BotState)
    (h : ∀ p ∈ st.pairs, p.ratio.isSome = true) :
    bridge_scout env st =
      .ok (match (get_coins st).find?
            (bridge_coin_qualifies env st (env.get_currency_balance env.bridge)) with
          | none => (st, none)
          | some c => ({ st with buy_orders := st.buy_orders + 1 }, some c)) :=
  bridge_scout_loop_find env st (env.get_currency_balance env.bridge) h (get_coins st)

theorem bridge_scout_first_qualifying_witness :
    bridge_scout envA stA =
      .ok ({ stA with buy_orders := stA.buy_orders + 1 }, some coinBTC) := by
  rw [bridge_scout_first_qualifying envA stA (by decide)]
  have hne : ¬(("no" : String) = "yes") := by decide
  norm_num [get_coins, bridge_coin_qualifies, get_ratios, get_ratios_list,
    get_pairs_from, pair_score, envA, stA, pairBE, coinBTC, coinETH, hne,
    List.find?_cons]

end BTBot
